import Mathlib

/-!
Shallow embedding of the login-tracker browser extension's core logic
(domain normalizer, email validator, record store, sync merge), translated
from the TypeScript sources:
  src/utils/gmailExtractor.ts  (DomainUtils.getRootDomain)
  src/background/background.ts (getRootDomain, storeEmailMapping, message
                                handlers ADD_EMAIL / DELETE_EMAIL / EDIT_EMAIL)
  src/utils/syncService.ts     (SyncService.smartMerge, saveEmailMapping,
                                getStorageStats — the file also contains the
                                storage utilities module)
  src/content/content.ts       (isValidEmail)

Characters are modelled as their UTF-16/ASCII code points (`Nat`); a
JavaScript string is a list of code points (`JStr`).  All inputs the
normalizer and validator care about are ASCII, and every JS regex used by
the sources is an ASCII-class pattern, so this embedding matches the JS
semantics on the reachable inputs.
-/

/-- A JavaScript string, as its list of character code points. -/
abbrev JStr := List Nat

/-- Code points of a Lean string literal (all sources use ASCII literals). -/
def codes (s : String) : JStr := s.data.map Char.toNat

/-- `String.prototype.toLowerCase` on one ASCII code point:
uppercase letters (65–90) shift by 32, all else unchanged. -/
def lowerCode (n : Nat) : Nat := if 65 ≤ n ∧ n ≤ 90 then n + 32 else n

/-- `String.prototype.toLowerCase` over the whole string (ASCII model). -/
def toLowerJ (s : JStr) : JStr := s.map lowerCode

/-- `replace(/^www\./, '')`: strip one leading `www.` if present. -/
def stripWWW (s : JStr) : JStr :=
  if s.take 4 = codes "www." then s.drop 4 else s

/-- `String.prototype.split('.')` — keeps empty fragments, never returns
an empty list (the split of `""` is `[""]`). `46` is `'.'`. -/
def splitDot : JStr → List JStr
  | [] => [[]]
  | c :: rest =>
    match splitDot rest with
    | [] => [[c]]
    | h :: t => if c = 46 then [] :: h :: t else (c :: h) :: t

/-- `Array.prototype.join('.')`. -/
def joinDot : List JStr → JStr
  | [] => []
  | [x] => x
  | x :: y :: rest => x ++ 46 :: joinDot (y :: rest)

/-- `Array.prototype.slice(-k)` on a list known to have ≥ k elements:
the last `k` elements. -/
def lastN (k : Nat) (l : List α) : List α := l.drop (l.length - k)

/-- The `SEPARATE_TLDS` set of `DomainUtils` in src/utils/gmailExtractor.ts
(the literal list; the JS `Set` collapses the duplicated `com.vc`, which
list membership also does). -/
def separateTlds : List JStr :=
  [codes "co.uk", codes "co.jp", codes "co.kr", codes "com.au", codes "co.nz",
   codes "co.za", codes "com.br", codes "com.mx",
   codes "co.in", codes "co.ca", codes "com.sg", codes "com.hk", codes "co.th",
   codes "com.tw", codes "com.tr", codes "com.ar",
   codes "com.co", codes "com.pe", codes "com.ve", codes "com.ec", codes "com.uy",
   codes "com.py", codes "com.bo", codes "com.gt",
   codes "com.sv", codes "com.hn", codes "com.ni", codes "com.cr", codes "com.pa",
   codes "com.do", codes "com.pr", codes "com.jm",
   codes "com.tt", codes "com.bb", codes "com.lc", codes "com.vc", codes "com.gd",
   codes "com.ag", codes "com.dm", codes "com.kn",
   codes "com.ms", codes "com.ai", codes "com.vg", codes "com.bm",
   codes "com.ky", codes "com.tc", codes "com.fk"]

/-- `DomainUtils.getRootDomain` (src/utils/gmailExtractor.ts, lines 324–345):
empty input returned unchanged; otherwise lower-case, strip a leading
`www.`, split on `.`; with ≤ 2 labels return the cleaned string; otherwise
return the last three labels when the last two form a known multi-part
suffix, else the last two. -/
def getRootDomain (domain : JStr) : JStr :=
  if domain = [] then domain
  else
    let cleanDomain := stripWWW (toLowerJ domain)
    let parts := splitDot cleanDomain
    if parts.length ≤ 2 then cleanDomain
    else
      let potentialTld := joinDot (lastN 2 parts)
      if potentialTld ∈ separateTlds then joinDot (lastN 3 parts)
      else joinDot (lastN 2 parts)

/-- A string is fully lower-case when lower-casing fixes every character. -/
def AllLower (s : JStr) : Prop := ∀ c ∈ s, lowerCode c = c

/-! ## Email validator (src/content/content.ts, `isValidEmail`, lines 281–373) -/

/-- `[0-9]`. -/
def isDigitCode (n : Nat) : Bool := decide (48 ≤ n ∧ n ≤ 57)

/-- `[a-zA-Z]`. -/
def isAlphaCode (n : Nat) : Bool :=
  decide ((65 ≤ n ∧ n ≤ 90) ∨ (97 ≤ n ∧ n ≤ 122))

/-- `\w`, i.e. `[A-Za-z0-9_]`. -/
def isWordCode (n : Nat) : Bool := isAlphaCode n || isDigitCode n || n == 95

/-- The local-part class `[a-zA-Z0-9._%+-]` of the email regex. -/
def isLocalCode (n : Nat) : Bool :=
  isAlphaCode n || isDigitCode n || n == 46 || n == 95 || n == 37 || n == 43 || n == 45

/-- The domain class `[a-zA-Z0-9.-]` of the email regex. -/
def isDomCode (n : Nat) : Bool := isAlphaCode n || isDigitCode n || n == 46 || n == 45

/-- `[a-f0-9]` against an already lower-cased string. -/
def isHexCode (n : Nat) : Bool := isDigitCode n || decide (97 ≤ n ∧ n ≤ 102)

/-- `[a-f0-9]` under the `i` flag (also accepts `A`–`F`). -/
def isHexCodeI (n : Nat) : Bool := isHexCode n || decide (65 ≤ n ∧ n ≤ 70)

/-- `String.prototype.split('@')` (`64` is `'@'`). -/
def splitAtSign : JStr → List JStr
  | [] => [[]]
  | c :: rest =>
    match splitAtSign rest with
    | [] => [[c]]
    | h :: t => if c = 64 then [] :: h :: t else (c :: h) :: t

/-- Whether `s` begins with `pat`. -/
def startsWithSeq (pat s : JStr) : Bool := s.take pat.length == pat

/-- Whether `s` ends with `pat` (an anchored `...$` regex of literals). -/
def endsWithSeq (pat s : JStr) : Bool := s.drop (s.length - pat.length) == pat

/-- An unanchored literal regex such as `/noreply/`: substring containment. -/
def containsSeq (pat : JStr) : JStr → Bool
  | [] => pat.isEmpty
  | c :: rest => startsWithSeq pat (c :: rest) || containsSeq pat rest

/-- Occurrences of code point `n` in `s`. -/
def countCode (n : Nat) (s : JStr) : Nat := (s.filter (· == n)).length

/-- `/^[a-zA-Z0-9._%+-]+@[a-zA-Z0-9.-]+\.[a-zA-Z]{2,}$/` on the local part:
nonempty, all in the local class. -/
def localOk (l : JStr) : Bool := !l.isEmpty && l.all isLocalCode

/-- The `[a-zA-Z0-9.-]+\.[a-zA-Z]{2,}$` half of the email regex on the part
after the `@`: it matches exactly when the maximal trailing letter run has
length ≥ 2, is preceded by a `.`, and what precedes that dot is nonempty and
inside the domain class (a dot can never occur inside the letter run, so the
backtracking search has only this one candidate split). -/
def domainTailOk (d : JStr) : Bool :=
  let rev := d.reverse
  let run := rev.takeWhile isAlphaCode
  let rest := rev.drop run.length
  decide (2 ≤ run.length) && rest.head? == some 46 &&
    !(rest.drop 1).isEmpty && (rest.drop 1).all isDomCode

/-- `emailRegex.test(email)`: the classes exclude `@`, so a match forces
exactly one `@`, a valid local part before it and a valid domain after it. -/
def emailFormat (s : JStr) : Bool :=
  match splitAtSign s with
  | [a, b] => localOk a && domainTailOk b
  | _ => false

/-- `/^\d{10,}$/`. -/
def allDigitsLong (s : JStr) : Bool := decide (10 ≤ s.length) && s.all isDigitCode

/-- `/^[a-f0-9]{32,}$/i`, applied by the source to the lower-cased email. -/
def hexLong (s : JStr) : Bool := decide (32 ≤ s.length) && s.all isHexCode

/-- `/\.\w{10,}$/`: the maximal trailing `\w` run has length ≥ 10 and is
preceded by a `.` (as with `domainTailOk`, the run is the only candidate). -/
def longSuffixAfterDot (s : JStr) : Bool :=
  let rev := s.reverse
  let run := rev.takeWhile isWordCode
  decide (10 ≤ run.length) && (rev.drop run.length).head? == some 46

/-- `/\+.*\+/`: two `+` signs with anything between.  `.` excludes line
breaks, but every string the source tests here already matched the email
regex, whose character classes admit no line break, so the pattern reduces
to "at least two `+` occurrences". -/
def twoPlus (s : JStr) : Bool := decide (2 ≤ countCode 43 s)

/-- The `invalidPatterns` array, each tested against `lowerEmail`;
`isInvalid` is their disjunction. -/
def invalidPatternsHit (lower : JStr) : Bool :=
  containsSeq (codes "noreply") lower || containsSeq (codes "no-reply") lower ||
  containsSeq (codes "support") lower || containsSeq (codes "admin") lower ||
  containsSeq (codes "test") lower || containsSeq (codes "example") lower ||
  containsSeq (codes "placeholder") lower || containsSeq (codes "your.email") lower ||
  twoPlus lower || allDigitsLong lower || hexLong lower || longSuffixAfterDot lower ||
  containsSeq (codes "token") lower || containsSeq (codes "session") lower ||
  containsSeq (codes "auth") lower || containsSeq (codes "key") lower ||
  containsSeq (codes "secret") lower || containsSeq (codes "encrypted") lower ||
  containsSeq (codes "hash") lower || containsSeq (codes "digest") lower ||
  containsSeq (codes "signature") lower

/-- The `validProviders` array: anchored `/@provider\.tld$/` suffix tests
against `lowerEmail`. -/
def validProviderHit (lower : JStr) : Bool :=
  endsWithSeq (codes "@gmail.com") lower || endsWithSeq (codes "@yahoo.com") lower ||
  endsWithSeq (codes "@outlook.com") lower || endsWithSeq (codes "@hotmail.com") lower ||
  endsWithSeq (codes "@icloud.com") lower || endsWithSeq (codes "@protonmail.com") lower ||
  endsWithSeq (codes "@mail.com") lower || endsWithSeq (codes "@yandex.com") lower ||
  endsWithSeq (codes "@zoho.com") lower || endsWithSeq (codes "@aol.com") lower

/-- The `suspiciousUsernamePatterns` array, tested on the original-case
username: `/^[a-f0-9]{8,}$/i`, `/^\d{6,}$/`, `/_{10,}/`, `/\.{5,}/`. -/
def suspiciousUsername (u : JStr) : Bool :=
  (decide (8 ≤ u.length) && u.all isHexCodeI) ||
  (decide (6 ≤ u.length) && u.all isDigitCode) ||
  containsSeq (List.replicate 10 95) u ||
  containsSeq (List.replicate 5 46) u

/-- `isValidEmail` (src/content/content.ts): format regex, denylist,
provider allowlist, then structural checks on username/domain. -/
def isValidEmail (email : JStr) : Bool :=
  let lowerEmail := toLowerJ email
  if !emailFormat email then false
  else if invalidPatternsHit lowerEmail then false
  else if validProviderHit lowerEmail then true
  else
    match splitAtSign email with
    | [username, domain] =>
      if decide (30 < username.length) || decide (username.length < 2) then false
      else if decide (50 < domain.length) || decide (domain.length < 4) then false
      else if suspiciousUsername username then false
      else true
    | _ => false

/-! ## Record store (storage module inside src/utils/syncService.ts and the
src/background/background.ts message handlers) -/

/-- `EmailMapping` (storage module): `description` is optional and only ever
set by the EDIT_EMAIL handler. -/
structure EmailMapping where
  email : String
  apiUrl : String
  timestamp : Nat
  count : Nat
  description : Option String := none
deriving DecidableEq

/-- `DomainMappings`: the persisted JS object mapping each root domain to
its record list, modelled as an association list with unique keys. -/
abbrev DomainMappings := List (String × List EmailMapping)

/-- Reading `mappings[domain]` on a JS object with unique keys. -/
def lookupD (m : DomainMappings) (d : String) : Option (List EmailMapping) :=
  (m.find? (fun p => p.1 == d)).map (fun p => p.2)

/-- Writing `mappings[domain] = lst`: replace the key if present, else add it. -/
def setD : DomainMappings → String → List EmailMapping → DomainMappings
  | [], d, lst => [(d, lst)]
  | (k, v) :: rest, d, lst =>
    if k == d then (d, lst) :: rest else (k, v) :: setD rest d lst

/-- `delete mappings[domain]`. -/
def removeD : DomainMappings → String → DomainMappings
  | [], _ => []
  | (k, v) :: rest, d => if k == d then rest else (k, v) :: removeD rest d

/-- In-place mutation of the first entry whose `email` matches (what the
sources do after a successful `findIndex`/`find`). -/
def updateFirst (email : String) (f : EmailMapping → EmailMapping) :
    List EmailMapping → List EmailMapping
  | [] => []
  | e :: rest =>
    if e.email == email then f e :: rest else e :: updateFirst email f rest

/-- `saveEmailMapping` (storage module in src/utils/syncService.ts, lines
389–431): update the existing entry in place (`timestamp`, `count += 1`,
latest `apiUrl`), or unshift a fresh entry and cap the list at 5; the result
is always written back, so this is the new persisted store. -/
def saveEmailMapping (m : DomainMappings) (domain email apiUrl : String)
    (now : Nat) : DomainMappings :=
  let lst := (lookupD m domain).getD []
  let lst' :=
    if (lst.findIdx? (fun e => e.email == email)).isSome then
      updateFirst email
        (fun e => { e with timestamp := now, count := e.count + 1, apiUrl := apiUrl }) lst
    else
      let l2 := ⟨email, apiUrl, now, 1, none⟩ :: lst
      if l2.length > 5 then l2.take 5 else l2
  setD m domain lst'

/-- `storeEmailMapping` (src/background/background.ts, lines 512–546),
modelled as the transformation of the PERSISTED store: when the email is
new, the fresh entry is unshifted, the list capped at 10, and
`chrome.storage.local.set` is called; when the email already exists the
function mutates only its freshly-read in-memory copy (`timestamp`,
`count += 1`) and performs no storage write, so the persisted store is
returned unchanged. -/
def bgStoreEmailMapping (m : DomainMappings) (domain email apiUrl : String)
    (now : Nat) : DomainMappings :=
  let lst := (lookupD m domain).getD []
  if (lst.find? (fun e => e.email == email)).isSome then
    m
  else
    let l2 := ⟨email, apiUrl, now, 1, none⟩ :: lst
    setD m domain (if l2.length > 10 then l2.take 10 else l2)

/-- The ADD_EMAIL handler (src/background/background.ts): refuse when the
email already exists for the domain, else unshift `{email,
manual://domain, now, 1}`, cap at 10, persist, and report success. -/
def addEmailManual (m : DomainMappings) (domain email : String) (now : Nat) :
    Bool × DomainMappings :=
  let lst := (lookupD m domain).getD []
  if (lst.find? (fun e => e.email == email)).isSome then
    (false, m)
  else
    let l2 := ⟨email, "manual://" ++ domain, now, 1, none⟩ :: lst
    (true, setD m domain (if l2.length > 10 then l2.take 10 else l2))

/-- The DELETE_EMAIL handler (src/background/background.ts, lines 660–680):
when the domain key exists, filter out all entries with the given email,
delete the key when the list becomes empty, and reply success — whether or
not the email was actually present; when the domain key is missing, reply
failure and leave the store unchanged. -/
def deleteEmail (m : DomainMappings) (domain email : String) :
    Bool × DomainMappings :=
  match lookupD m domain with
  | some lst =>
    let l' := lst.filter (fun e => e.email != email)
    (true, if l'.isEmpty then removeD m domain else setD m domain l')
  | none => (false, m)

/-- The EDIT_EMAIL handler (src/background/background.ts, lines 720–746):
rename the first entry matching `oldEmail` in place, refresh `timestamp`,
set `description` when provided; fail when domain or email is missing.
No check is made against `newEmail` already occurring in the list. -/
def editEmail (m : DomainMappings) (domain oldEmail newEmail : String)
    (descr : Option String) (now : Nat) : Bool × DomainMappings :=
  match lookupD m domain with
  | none => (false, m)
  | some lst =>
    if (lst.findIdx? (fun e => e.email == oldEmail)).isSome then
      (true, setD m domain (updateFirst oldEmail
        (fun e =>
          let dsc' : Option String :=
            match descr with
            | some dsc => some dsc
            | none => e.description
          { e with email := newEmail, timestamp := now, description := dsc' }) lst))
    else (false, m)

/-- The aggregate part of `getStorageStats` (storage module in
src/utils/syncService.ts, lines 529–555). -/
structure StorageStats where
  totalDomains : Nat
  totalEmails : Nat
  totalLogins : Nat
deriving DecidableEq

/-- `getStorageStats`: pure aggregation over the store. -/
def getStorageStats (m : DomainMappings) : StorageStats :=
  { totalDomains := m.length
    totalEmails := (m.map (fun p => p.2.length)).sum
    totalLogins := (m.map (fun p => (p.2.map (fun e => e.count)).sum)).sum }

/-! ## Sync merge (`SyncService.smartMerge`, src/utils/syncService.ts,
lines 184–228) -/

/-- The `MergeStrategy` union type. -/
inductive MergeStrategy where
  | LOCAL_WINS
  | REMOTE_WINS
  | LATEST_WINS
deriving DecidableEq

/-- The `switch (strategy)` conflict resolution for an email present in
both stores: LOCAL_WINS overwrites with local, REMOTE_WINS keeps remote,
LATEST_WINS overwrites only when the local timestamp is strictly greater. -/
def resolveConflict (strategy : MergeStrategy) (remoteE localE : EmailMapping) :
    EmailMapping :=
  match strategy with
  | .LOCAL_WINS => localE
  | .REMOTE_WINS => remoteE
  | .LATEST_WINS => if localE.timestamp > remoteE.timestamp then localE else remoteE

/-- One iteration of the inner loop of `smartMerge`: `findIndex` the local
email in the accumulated list; on a hit resolve in place, otherwise push
the local entry at the end. -/
def mergeInto (strategy : MergeStrategy) :
    List EmailMapping → EmailMapping → List EmailMapping
  | [], l => [l]
  | r :: rest, l =>
    if r.email == l.email then resolveConflict strategy r l :: rest
    else r :: mergeInto strategy rest l

/-- The inner loop of `smartMerge` over one domain's local entries. -/
def mergeDomainLists (strategy : MergeStrategy)
    (remoteList localList : List EmailMapping) : List EmailMapping :=
  localList.foldl (mergeInto strategy) remoteList

/-- `SyncService.smartMerge`: start from a copy of remote, then fold the
local domains in, merging each local entry into the accumulated list for
its domain (an absent domain starts from `[]`).  No cap is applied. -/
def smartMerge (strategy : MergeStrategy)
    (localData remoteData : DomainMappings) : DomainMappings :=
  localData.foldl
    (fun merged p =>
      setD merged p.1 (mergeDomainLists strategy ((lookupD merged p.1).getD []) p.2))
    remoteData

/-- The per-domain email-uniqueness invariant of the spec's data model. -/
def UniqueEmails (m : DomainMappings) : Prop :=
  ∀ d lst, lookupD m d = some lst → (lst.map (fun x => x.email)).Nodup

/-- The per-domain record-cap invariant of the spec's data model. -/
def CapBound (k : Nat) (m : DomainMappings) : Prop :=
  ∀ d lst, lookupD m d = some lst → lst.length ≤ k

/-- A local store reached by five `saveEmailMapping` upserts (cap 5). -/
def localC6 : DomainMappings :=
  saveEmailMapping (saveEmailMapping (saveEmailMapping (saveEmailMapping
    (saveEmailMapping [] "d" "e1@x.com" "u" 1) "d" "e2@x.com" "u" 2)
    "d" "e3@x.com" "u" 3) "d" "e4@x.com" "u" 4) "d" "e5@x.com" "u" 5

/-- A remote store reached by five `saveEmailMapping` upserts (cap 5). -/
def remoteC6 : DomainMappings :=
  saveEmailMapping (saveEmailMapping (saveEmailMapping (saveEmailMapping
    (saveEmailMapping [] "d" "f1@x.com" "u" 1) "d" "f2@x.com" "u" 2)
    "d" "f3@x.com" "u" 3) "d" "f4@x.com" "u" 4) "d" "f5@x.com" "u" 5

/-! ## Claim theorems -/

/-- C8: the domain normalizer maps `login.example.co.uk` to `example.co.uk`
(multi-part public suffix), `www.github.com` to `github.com` (www stripped),
and `a.b.c.d.com` to `d.com` (regular case keeps the last two labels). -/
theorem C8_normalizer_examples :
    getRootDomain (codes "login.example.co.uk") = codes "example.co.uk" ∧
    getRootDomain (codes "www.github.com") = codes "github.com" ∧
    getRootDomain (codes "a.b.c.d.com") = codes "d.com" := by
  refine ⟨by decide, by decide, by decide⟩

/-- C9: the email validator rejects `noreply@service.com` (denylist word)
and `a1b2c3d4e5f6a1b2c3d4e5f6a1b2c3d4@x.com` (32-character local part fails
the length bound), and accepts `jane.doe@gmail.com` (provider allowlist). -/
theorem C9_validator_examples :
    isValidEmail (codes "noreply@service.com") = false ∧
    isValidEmail (codes "a1b2c3d4e5f6a1b2c3d4e5f6a1b2c3d4@x.com") = false ∧
    isValidEmail (codes "jane.doe@gmail.com") = true := by
  refine ⟨by decide, by decide, by decide⟩

/-- C4 (code bug): two `saveEmailMapping` calls with the same domain/email
leave one persisted record with `count = 2`, exactly as the claim states;
but the background variant `storeEmailMapping` persists `count = 1` after
two calls, because its update branch mutates only the freshly-read copy
and never calls `chrome.storage.local.set`. -/
theorem C4_bg_update_not_persisted :
    lookupD (saveEmailMapping
        (saveEmailMapping [] "example.com" "a@x.com" "https://x.com/login" 100)
        "example.com" "a@x.com" "https://x.com/login" 200) "example.com" =
      some [⟨"a@x.com", "https://x.com/login", 200, 2, none⟩] ∧
    lookupD (bgStoreEmailMapping
        (bgStoreEmailMapping [] "example.com" "a@x.com" "https://x.com/login" 100)
        "example.com" "a@x.com" "https://x.com/login" 200) "example.com" =
      some [⟨"a@x.com", "https://x.com/login", 100, 1, none⟩] := by
  refine ⟨by decide, by decide⟩

/-- A substring of `s` is a substring of `x ++ s`. -/
theorem containsSeq_append_left (pat x s : JStr)
    (h : containsSeq pat s = true) : containsSeq pat (x ++ s) = true := by
  induction x with
  | nil => simpa using h
  | cons c rest ih =>
    simp only [List.cons_append, containsSeq, Bool.or_eq_true]
    exact Or.inr ih

/-- `toLowerCase` distributes over concatenation. -/
theorem toLowerJ_append (a b : JStr) : toLowerJ (a ++ b) = toLowerJ a ++ toLowerJ b :=
  List.map_append lowerCode a b

/-- C10: the validator's denylist is applied to the whole address, so any
candidate `local@dom` whose domain contains the fragment `auth`, `key` or
`test` (case-insensitively) is rejected. -/
theorem C10_denylist_applies_to_domain (frag localPart dom : JStr)
    (hfrag : frag ∈ [codes "auth", codes "key", codes "test"])
    (hdom : containsSeq frag (toLowerJ dom) = true) :
    isValidEmail (localPart ++ 64 :: dom) = false := by
  have hsplit : toLowerJ (localPart ++ 64 :: dom) =
      (toLowerJ localPart ++ [64]) ++ toLowerJ dom := by
    simp [toLowerJ, lowerCode]
  have hcontains : containsSeq frag (toLowerJ (localPart ++ 64 :: dom)) = true := by
    rw [hsplit]; exact containsSeq_append_left frag _ _ hdom
  have hinv : invalidPatternsHit (toLowerJ (localPart ++ 64 :: dom)) = true := by
    simp only [List.mem_cons, List.mem_singleton, List.not_mem_nil, or_false] at hfrag
    rcases hfrag with h | h | h <;> subst h <;>
      simp only [invalidPatternsHit, hcontains, Bool.or_true, Bool.true_or]
  unfold isValidEmail
  cases hf : emailFormat (localPart ++ 64 :: dom) <;> simp [hf, hinv]

/-- Witness for C10 at `jane@keybank.com`. -/
theorem C10_witness : isValidEmail (codes "jane" ++ 64 :: codes "keybank.com") = false :=
  C10_denylist_applies_to_domain (codes "key") (codes "jane") (codes "keybank.com")
    (by decide) (by decide)

/-! ## Structure of `getRootDomain` output (towards claim C2) -/

/-- Unfolding equation for `splitDot` on a cons, once the split of the tail
is known. -/
theorem splitDot_cons_eq (c : Nat) (rest : JStr) (h : JStr) (t : List JStr)
    (hsd : splitDot rest = h :: t) :
    splitDot (c :: rest) = if c = 46 then [] :: h :: t else (c :: h) :: t := by
  simp only [splitDot, hsd]

/-- `split` never returns an empty list of fragments. -/
theorem splitDot_ne_nil (s : JStr) : splitDot s ≠ [] := by
  cases s with
  | nil => simp [splitDot]
  | cons c rest =>
    cases hsd : splitDot rest with
    | nil => simp [splitDot, hsd]
    | cons h t =>
      rw [splitDot_cons_eq c rest h t hsd]
      split <;> simp

/-- Splitting a dot-free string yields the single fragment itself. -/
theorem splitDot_of_no_dot (s : JStr) (h : 46 ∉ s) : splitDot s = [s] := by
  induction s with
  | nil => rfl
  | cons c rest ih =>
    have hc : c ≠ 46 := fun hc => h (hc ▸ List.mem_cons_self c rest)
    have hrest : 46 ∉ rest := fun hm => h (List.mem_cons_of_mem c hm)
    simp only [splitDot, ih hrest]
    simp [hc]

/-- Splitting past a leading dot-free fragment. -/
theorem splitDot_append_dot (x rest : JStr) (h : 46 ∉ x) :
    splitDot (x ++ 46 :: rest) = x :: splitDot rest := by
  induction x with
  | nil =>
    simp only [List.nil_append, splitDot]
    cases hsd : splitDot rest with
    | nil => exact absurd hsd (splitDot_ne_nil rest)
    | cons h t => simp
  | cons c x ih =>
    have hc : c ≠ 46 := fun hc => h (hc ▸ List.mem_cons_self c x)
    have hx : 46 ∉ x := fun hm => h (List.mem_cons_of_mem c hm)
    rw [List.cons_append,
      splitDot_cons_eq c (x ++ 46 :: rest) x (splitDot rest) (ih hx), if_neg hc]

/-- No fragment produced by `split('.')` contains a dot. -/
theorem not_dot_mem_of_mem_splitDot (s : JStr) :
    ∀ p ∈ splitDot s, 46 ∉ p := by
  induction s with
  | nil => intro p hp; simp [splitDot] at hp; simp [hp]
  | cons c rest ih =>
    intro p hp
    cases hsd : splitDot rest with
    | nil => exact absurd hsd (splitDot_ne_nil rest)
    | cons h t =>
      rw [splitDot_cons_eq c rest h t hsd] at hp
      by_cases hc : c = 46
      · rw [if_pos hc] at hp
        rcases List.mem_cons.mp hp with hp | hp
        · simp [hp]
        · exact ih p (by rw [hsd]; exact hp)
      · rw [if_neg hc] at hp
        rcases List.mem_cons.mp hp with hp | hp
        · subst hp
          intro hmem
          rcases List.mem_cons.mp hmem with h46 | h46
          · exact hc h46.symm
          · exact ih h (by rw [hsd]; exact List.mem_cons_self h t) h46
        · exact ih p (by rw [hsd]; exact List.mem_cons_of_mem h hp)

/-- Every character of a fragment of `split('.')` occurs in the input. -/
theorem mem_of_mem_splitDot (s : JStr) :
    ∀ p ∈ splitDot s, ∀ c ∈ p, c ∈ s := by
  induction s with
  | nil => intro p hp; simp [splitDot] at hp; simp [hp]
  | cons a rest ih =>
    intro p hp c hc
    cases hsd : splitDot rest with
    | nil => exact absurd hsd (splitDot_ne_nil rest)
    | cons h t =>
      rw [splitDot_cons_eq a rest h t hsd] at hp
      by_cases ha : a = 46
      · rw [if_pos ha] at hp
        rcases List.mem_cons.mp hp with hp | hp
        · subst hp; simp at hc
        · exact List.mem_cons_of_mem a
            (ih p (by rw [hsd]; exact hp) c hc)
      · rw [if_neg ha] at hp
        rcases List.mem_cons.mp hp with hp | hp
        · subst hp
          rcases List.mem_cons.mp hc with rfl | hc
          · exact List.mem_cons_self c rest
          · exact List.mem_cons_of_mem a
              (ih h (by rw [hsd]; exact List.mem_cons_self h t) c hc)
        · exact List.mem_cons_of_mem a
            (ih p (by rw [hsd]; exact List.mem_cons_of_mem h hp) c hc)

/-- ASCII lower-casing is idempotent on a single code point. -/
theorem lowerCode_idem (n : Nat) : lowerCode (lowerCode n) = lowerCode n := by
  unfold lowerCode
  by_cases h : 65 ≤ n ∧ n ≤ 90
  · rw [if_pos h, if_neg (by omega)]
  · rw [if_neg h, if_neg h]

/-- Lower-casing is the identity on a lower-case string. -/
theorem toLowerJ_eq_self {s : JStr} (h : AllLower s) : toLowerJ s = s := by
  unfold toLowerJ
  induction s with
  | nil => rfl
  | cons c rest ih =>
    have hc := h c (List.mem_cons_self c rest)
    have hrest : AllLower rest := fun a ha => h a (List.mem_cons_of_mem c ha)
    simp [hc, ih hrest]

/-- The result of lower-casing is lower-case. -/
theorem allLower_toLowerJ (s : JStr) : AllLower (toLowerJ s) := by
  intro c hc
  simp only [toLowerJ, List.mem_map] at hc
  obtain ⟨a, _, rfl⟩ := hc
  exact lowerCode_idem a

/-- Stripping a `www.` prefix preserves lower-caseness. -/
theorem allLower_stripWWW {s : JStr} (h : AllLower s) : AllLower (stripWWW s) := by
  unfold stripWWW
  split
  · exact fun c hc => h c (List.mem_of_mem_drop hc)
  · exact h

/-- When the string does not begin with `www.`, stripping is the identity. -/
theorem stripWWW_eq_self {s : JStr} (h : s.take 4 ≠ codes "www.") :
    stripWWW s = s := by
  unfold stripWWW
  rw [if_neg h]

/-- Joining lower-case fragments with dots yields a lower-case string. -/
theorem allLower_joinDot :
    ∀ ps : List JStr, (∀ p ∈ ps, AllLower p) → AllLower (joinDot ps) := by
  intro ps
  induction ps with
  | nil => intro _ c hc; simp [joinDot] at hc
  | cons x rest ih =>
    intro h c hc
    cases rest with
    | nil => exact h x (List.mem_cons_self x []) c (by simpa [joinDot] using hc)
    | cons y t =>
      simp only [joinDot, List.mem_append, List.mem_cons] at hc
      rcases hc with hc | hc | hc
      · exact h x (List.mem_cons_self x (y :: t)) c hc
      · subst hc; rfl
      · exact ih (fun p hp => h p (List.mem_cons_of_mem x hp)) c hc

/-- `getRootDomain` on the empty hostname. -/
theorem getRootDomain_nil : getRootDomain [] = [] := rfl

/-- Unfolding equation of `getRootDomain` for nonempty input. -/
theorem getRootDomain_eq (s : JStr) (hs : s ≠ []) :
    getRootDomain s =
      (let cleanDomain := stripWWW (toLowerJ s)
       let parts := splitDot cleanDomain
       if parts.length ≤ 2 then cleanDomain
       else if joinDot (lastN 2 parts) ∈ separateTlds then joinDot (lastN 3 parts)
       else joinDot (lastN 2 parts)) := by
  unfold getRootDomain
  rw [if_neg hs]

/-- A lower-case string that does not begin with `www.` and is either at
most two labels or exactly three labels whose last two form a known
multi-part suffix is a fixed point of the normalizer. -/
theorem getRootDomain_fixed (r : JStr) (hlow : AllLower r)
    (hww : r.take 4 ≠ codes "www.")
    (hform : (splitDot r).length ≤ 2 ∨
      ∃ p q t : JStr, r = p ++ 46 :: (q ++ 46 :: t) ∧ 46 ∉ p ∧ 46 ∉ q ∧ 46 ∉ t ∧
        joinDot [q, t] ∈ separateTlds) :
    getRootDomain r = r := by
  by_cases hr : r = []
  · rw [hr]; rfl
  · rw [getRootDomain_eq r hr]
    have hclean : stripWWW (toLowerJ r) = r := by
      rw [toLowerJ_eq_self hlow]; exact stripWWW_eq_self hww
    simp only [hclean]
    rcases hform with hlen | ⟨p, q, t, hreq, hp, hq, ht, htld⟩
    · rw [if_pos hlen]
    · have hsplit : splitDot r = [p, q, t] := by
        rw [hreq, splitDot_append_dot p _ hp, splitDot_append_dot q t hq,
          splitDot_of_no_dot t ht]
      rw [hsplit]
      rw [if_neg (by simp)]
      have h2 : lastN 2 [p, q, t] = [q, t] := by simp [lastN]
      have h3 : lastN 3 [p, q, t] = [p, q, t] := by simp [lastN]
      rw [h2, h3, if_pos htld, hreq]
      simp [joinDot]

/-- The normalizer's output is fully lower-case. -/
theorem allLower_getRootDomain (s : JStr) : AllLower (getRootDomain s) := by
  by_cases hs : s = []
  · rw [hs, getRootDomain_nil]; intro c hc; simp at hc
  · rw [getRootDomain_eq s hs]
    have hcl : AllLower (stripWWW (toLowerJ s)) :=
      allLower_stripWWW (allLower_toLowerJ s)
    simp only []
    split
    · exact hcl
    · split
      · exact allLower_joinDot _ (fun p hp c hc2 =>
          hcl c (mem_of_mem_splitDot _ p (List.drop_subset _ _ hp) c hc2))
      · exact allLower_joinDot _ (fun p hp c hc2 =>
          hcl c (mem_of_mem_splitDot _ p (List.drop_subset _ _ hp) c hc2))

/-- The normalizer's output has at most two labels, or exactly three labels
whose last two are a known multi-part suffix. -/
theorem getRootDomain_shape (s : JStr) :
    (splitDot (getRootDomain s)).length ≤ 2 ∨
    ∃ p q t : JStr, getRootDomain s = p ++ 46 :: (q ++ 46 :: t) ∧
      46 ∉ p ∧ 46 ∉ q ∧ 46 ∉ t ∧ joinDot [q, t] ∈ separateTlds := by
  by_cases hs : s = []
  · left; rw [hs, getRootDomain_nil]; decide
  · rw [getRootDomain_eq s hs]
    simp only []
    by_cases hlen : (splitDot (stripWWW (toLowerJ s))).length ≤ 2
    · left; rw [if_pos hlen]; exact hlen
    · rw [if_neg hlen]
      push_neg at hlen
      by_cases htld :
          joinDot (lastN 2 (splitDot (stripWWW (toLowerJ s)))) ∈ separateTlds
      · rw [if_pos htld]
        have hlen3 : (lastN 3 (splitDot (stripWWW (toLowerJ s)))).length = 3 := by
          simp only [lastN, List.length_drop]; omega
        obtain ⟨p, q, t, hpqt⟩ := List.length_eq_three.mp hlen3
        right
        have hmem3 : ∀ x : JStr, x ∈ [p, q, t] →
            x ∈ splitDot (stripWWW (toLowerJ s)) := by
          intro x hx
          rw [← hpqt] at hx
          simp only [lastN] at hx
          exact List.drop_subset _ _ hx
        have hpm := hmem3 p (by simp)
        have hqm := hmem3 q (by simp)
        have htm := hmem3 t (by simp)
        have h2 : lastN 2 (splitDot (stripWWW (toLowerJ s))) = [q, t] := by
          have hdd : lastN 2 (splitDot (stripWWW (toLowerJ s))) =
              List.drop 1 (lastN 3 (splitDot (stripWWW (toLowerJ s)))) := by
            simp only [lastN, List.drop_drop]
            congr 1
            omega
          rw [hdd, hpqt]
          rfl
        refine ⟨p, q, t, by rw [hpqt]; simp [joinDot], ?_, ?_, ?_, ?_⟩
        · exact not_dot_mem_of_mem_splitDot _ p hpm
        · exact not_dot_mem_of_mem_splitDot _ q hqm
        · exact not_dot_mem_of_mem_splitDot _ t htm
        · rwa [h2] at htld
      · rw [if_neg htld]
        left
        have hlen2 : (lastN 2 (splitDot (stripWWW (toLowerJ s)))).length = 2 := by
          simp only [lastN, List.length_drop]; omega
        obtain ⟨p, q, hpq⟩ := List.length_eq_two.mp hlen2
        have hmem2 : ∀ x : JStr, x ∈ [p, q] →
            x ∈ splitDot (stripWWW (toLowerJ s)) := by
          intro x hx
          rw [← hpq] at hx
          simp only [lastN] at hx
          exact List.drop_subset _ _ hx
        have hpd : 46 ∉ p := not_dot_mem_of_mem_splitDot _ p (hmem2 p (by simp))
        have hqd : 46 ∉ q := not_dot_mem_of_mem_splitDot _ q (hmem2 q (by simp))
        rw [hpq, show joinDot [p, q] = p ++ 46 :: q by simp [joinDot],
          splitDot_append_dot p q hpd, splitDot_of_no_dot q hqd]
        simp

/-- C2 fails on the code: normalizing `a.www.com` yields `www.com`, and
normalizing that again strips the `www.` and yields `com`. -/
theorem C2_counterexample :
    getRootDomain (getRootDomain (codes "a.www.com")) ≠
      getRootDomain (codes "a.www.com") := by decide

/-- C2 (amended): the normalizer is idempotent on every hostname whose
normalized form does not itself begin with `www.` — the only way a second
pass can differ is the renewed `www.`-stripping. -/
theorem C2_normalize_idempotent_amended (s : JStr)
    (h : (getRootDomain s).take 4 ≠ codes "www.") :
    getRootDomain (getRootDomain s) = getRootDomain s :=
  getRootDomain_fixed (getRootDomain s) (allLower_getRootDomain s) h
    (getRootDomain_shape s)

/-- Witness for the amended C2 at `login.example.co.uk`. -/
theorem C2_witness :
    (getRootDomain (codes "login.example.co.uk")).take 4 ≠ codes "www." ∧
    getRootDomain (getRootDomain (codes "login.example.co.uk")) =
      getRootDomain (codes "login.example.co.uk") :=
  ⟨by decide, C2_normalize_idempotent_amended (codes "login.example.co.uk") (by decide)⟩

/-! ## Store lemmas -/

/-- Looking a key up after writing it (or any other key). -/
theorem lookupD_setD (m : DomainMappings) (d d' : String) (lst : List EmailMapping) :
    lookupD (setD m d lst) d' = if d' = d then some lst else lookupD m d' := by
  induction m with
  | nil =>
    by_cases h : d' = d
    · subst h; simp [setD, lookupD, List.find?]
    · have hb : (d == d') = false := beq_false_of_ne (fun hh => h hh.symm)
      simp [setD, lookupD, List.find?, hb, h]
  | cons p m ih =>
    obtain ⟨k, v⟩ := p
    by_cases hk : k = d
    · subst hk
      have hset : setD ((k, v) :: m) k lst = (k, lst) :: m := by
        simp [setD]
      rw [hset]
      by_cases h : d' = k
      · subst h; simp [lookupD, List.find?]
      · have hb : (k == d') = false := beq_false_of_ne (fun hh => h hh.symm)
        simp [lookupD, List.find?, hb, h]
    · have hbk : (k == d) = false := beq_false_of_ne hk
      have hset : setD ((k, v) :: m) d lst = (k, v) :: setD m d lst := by
        simp [setD, hbk]
      rw [hset]
      by_cases h : d' = k
      · subst h
        have hne : ¬(d' = d) := fun hh => hk (hh ▸ rfl)
        simp [lookupD, List.find?, hne]
      · have hb : (k == d') = false := beq_false_of_ne (fun hh => h hh.symm)
        simp only [lookupD, List.find?, hb] at ih ⊢
        exact ih

/-- After deleting a key from a store with unique keys, the key is gone. -/
theorem lookupD_removeD_self (m : DomainMappings) (d : String)
    (hnd : (m.map Prod.fst).Nodup) : lookupD (removeD m d) d = none := by
  induction m with
  | nil => rfl
  | cons p m ih =>
    obtain ⟨k, v⟩ := p
    simp only [List.map_cons, List.nodup_cons] at hnd
    by_cases hk : k = d
    · subst hk
      rw [show removeD ((k, v) :: m) k = m by simp [removeD]]
      unfold lookupD
      rw [List.find?_eq_none.mpr]
      · rfl
      · intro p hp
        simp only [beq_iff_eq]
        intro hpk
        exact hnd.1 (hpk ▸ List.mem_map_of_mem Prod.fst hp)
    · have hbk : (k == d) = false := beq_false_of_ne hk
      rw [show removeD ((k, v) :: m) d = (k, v) :: removeD m d by simp [removeD, hbk]]
      unfold lookupD
      simp only [List.find?, hbk]
      exact ih hnd.2

/-- Deleting a present key shortens the store by exactly one entry. -/
theorem removeD_length (m : DomainMappings) (d : String) (lst : List EmailMapping)
    (h : lookupD m d = some lst) : (removeD m d).length + 1 = m.length := by
  induction m with
  | nil => simp [lookupD] at h
  | cons p m ih =>
    obtain ⟨k, v⟩ := p
    by_cases hk : k = d
    · simp [removeD, hk]
    · have hbk : (k == d) = false := beq_false_of_ne hk
      rw [show removeD ((k, v) :: m) d = (k, v) :: removeD m d by simp [removeD, hbk]]
      simp only [List.length_cons, Nat.add_left_inj]
      apply ih
      unfold lookupD at h ⊢
      simp only [List.find?, hbk] at h
      exact h

/-! ## Merge lemmas -/

/-- Conflict resolution keeps the conflicting email address. -/
theorem resolveConflict_email (strategy : MergeStrategy) (r l : EmailMapping)
    (h : r.email = l.email) : (resolveConflict strategy r l).email = l.email := by
  cases strategy with
  | LOCAL_WINS => rfl
  | REMOTE_WINS => exact h
  | LATEST_WINS =>
    simp only [resolveConflict]
    split
    · rfl
    · exact h

/-- Effect of merging one local entry on a later `findIndex`-style lookup:
the entry for the local email is resolved (or appended), all other emails
are untouched. -/
theorem find_mergeInto (strategy : MergeStrategy) (lst : List EmailMapping)
    (l : EmailMapping) (e : String) :
    (mergeInto strategy lst l).find? (fun x => x.email == e) =
      if l.email = e then
        (match lst.find? (fun x => x.email == e) with
         | some r => some (resolveConflict strategy r l)
         | none => some l)
      else lst.find? (fun x => x.email == e) := by
  induction lst with
  | nil =>
    by_cases he : l.email = e
    · have hb : (l.email == e) = true := by simp [he]
      simp [mergeInto, List.find?, hb, he]
    · have hb : (l.email == e) = false := by simp [he]
      simp [mergeInto, List.find?, hb, he]
  | cons r rest ih =>
    by_cases hr : r.email = l.email
    · have hbr : (r.email == l.email) = true := by simp [hr]
      rw [show mergeInto strategy (r :: rest) l = resolveConflict strategy r l :: rest
        by simp [mergeInto, hbr]]
      have hres := resolveConflict_email strategy r l hr
      by_cases he : l.email = e
      · have h1 : ((resolveConflict strategy r l).email == e) = true := by simp [hres, he]
        have h2 : (r.email == e) = true := by simp [hr, he]
        simp [List.find?, h1, h2, he]
      · have h1 : ((resolveConflict strategy r l).email == e) = false := by simp [hres, he]
        have h2 : (r.email == e) = false := by simp [hr, he]
        simp [List.find?, h1, h2, he]
    · have hbr : (r.email == l.email) = false := by simp [hr]
      rw [show mergeInto strategy (r :: rest) l = r :: mergeInto strategy rest l
        by simp [mergeInto, hbr]]
      by_cases hre : r.email = e
      · have h2 : (r.email == e) = true := by simp [hre]
        by_cases he : l.email = e
        · exact absurd (hre.trans he.symm) hr
        · simp [List.find?, h2, he]
      · have h2 : (r.email == e) = false := by simp [hre]
        simp only [List.find?, h2]
        rw [ih]

/-- Effect of the whole inner loop of `smartMerge` on one email, assuming
the local list names each email at most once: the email's record is the
pairwise resolution when it occurs on both sides, the local record when it
is local-only, and the remote lookup otherwise. -/
theorem find_mergeDomainLists (strategy : MergeStrategy)
    (ll : List EmailMapping) (rl : List EmailMapping) (e : String)
    (hnd : (ll.map (fun x => x.email)).Nodup) :
    (mergeDomainLists strategy rl ll).find? (fun x => x.email == e) =
      match ll.find? (fun x => x.email == e), rl.find? (fun x => x.email == e) with
      | some l, some r => some (resolveConflict strategy r l)
      | some l, none => some l
      | none, _ => rl.find? (fun x => x.email == e) := by
  induction ll generalizing rl with
  | nil => simp [mergeDomainLists, List.find?]
  | cons l0 ll ih =>
    simp only [List.map_cons, List.nodup_cons] at hnd
    have hfold : mergeDomainLists strategy rl (l0 :: ll) =
        mergeDomainLists strategy (mergeInto strategy rl l0) ll := rfl
    rw [hfold, ih _ hnd.2]
    by_cases he : l0.email = e
    · have hllnone : ll.find? (fun x => x.email == e) = none := by
        apply List.find?_eq_none.mpr
        intro x hx
        simp only [beq_iff_eq]
        intro hxe
        apply hnd.1
        rw [he, ← hxe]
        exact List.mem_map_of_mem _ hx
      rw [hllnone]
      have hb : (l0.email == e) = true := by simp [he]
      simp only [List.find?, hb]
      rw [find_mergeInto, if_pos he]
      cases rl.find? (fun x => x.email == e) <;> rfl
    · have hb : (l0.email == e) = false := by simp [he]
      simp only [List.find?, hb]
      rw [find_mergeInto, if_neg he]

/-- Merging one local entry grows the list by at most one. -/
theorem length_mergeInto (strategy : MergeStrategy) (lst : List EmailMapping)
    (l : EmailMapping) : (mergeInto strategy lst l).length ≤ lst.length + 1 := by
  induction lst with
  | nil => simp [mergeInto]
  | cons r rest ih =>
    simp only [mergeInto]
    split
    · simp
    · simp only [List.length_cons]
      omega

/-- The merged list for one domain is no longer than the local and remote
lists combined. -/
theorem length_mergeDomainLists (strategy : MergeStrategy)
    (ll rl : List EmailMapping) :
    (mergeDomainLists strategy rl ll).length ≤ rl.length + ll.length := by
  induction ll generalizing rl with
  | nil => simp [mergeDomainLists]
  | cons l0 ll ih =>
    have hfold : mergeDomainLists strategy rl (l0 :: ll) =
        mergeDomainLists strategy (mergeInto strategy rl l0) ll := rfl
    rw [hfold]
    have h1 := ih (mergeInto strategy rl l0)
    have h2 := length_mergeInto strategy rl l0
    simp only [List.length_cons]
    omega

/-- Per-domain description of `smartMerge`, assuming the local store names
each domain at most once: a domain present in local maps to the merged
list (with remote's list, or `[]`, as the base), any other domain keeps
remote's entry. -/
theorem lookupD_smartMerge (strategy : MergeStrategy)
    (localData remoteData : DomainMappings) (d : String)
    (hnd : (localData.map Prod.fst).Nodup) :
    lookupD (smartMerge strategy localData remoteData) d =
      match localData.find? (fun p => p.1 == d) with
      | some pr =>
        some (mergeDomainLists strategy ((lookupD remoteData d).getD []) pr.2)
      | none => lookupD remoteData d := by
  induction localData generalizing remoteData with
  | nil => simp [smartMerge, List.find?]
  | cons p localData ih =>
    obtain ⟨d0, ll0⟩ := p
    simp only [List.map_cons, List.nodup_cons] at hnd
    have hfold : smartMerge strategy ((d0, ll0) :: localData) remoteData =
        smartMerge strategy localData
          (setD remoteData d0
            (mergeDomainLists strategy ((lookupD remoteData d0).getD []) ll0)) := rfl
    rw [hfold, ih _ hnd.2]
    by_cases hd : d0 = d
    · subst hd
      have hnone : localData.find? (fun p => p.1 == d0) = none := by
        apply List.find?_eq_none.mpr
        intro q hq
        simp only [beq_iff_eq]
        intro hq1
        exact hnd.1 (hq1 ▸ List.mem_map_of_mem Prod.fst hq)
      rw [hnone]
      have hb : (d0 == d0) = true := by simp
      simp only [List.find?, hb]
      rw [lookupD_setD, if_pos rfl]
    · have hb : (d0 == d) = false := by simp [hd]
      rw [lookupD_setD, if_neg (fun hh => hd hh.symm)]
      simp only [List.find?, hb]

/-- C1: under `LATEST_WINS`, for any local and remote stores (local domain
keys unique, the local list's emails unique, as JS objects and a
well-formed store guarantee), a domain/email pair present in both sides is
merged to `if local.timestamp > remote.timestamp then local else remote` —
the record with the greater `lastSeen` whenever the two differ — and a
pair present only locally (email absent remotely, or whole domain absent
remotely) is contained in the merged result. -/
theorem C1_smartMerge_latest_wins
    (localData remoteData : DomainMappings) (d e : String)
    (ll : List EmailMapping) (l : EmailMapping)
    (hndl : (localData.map Prod.fst).Nodup)
    (hndll : (ll.map (fun x => x.email)).Nodup)
    (hld : lookupD localData d = some ll)
    (hle : ll.find? (fun x => x.email == e) = some l) :
    (∀ rl r, lookupD remoteData d = some rl →
      rl.find? (fun x => x.email == e) = some r →
      ∃ merged, lookupD (smartMerge .LATEST_WINS localData remoteData) d = some merged ∧
        merged.find? (fun x => x.email == e) =
          some (if l.timestamp > r.timestamp then l else r)) ∧
    (∀ rl, lookupD remoteData d = some rl →
      rl.find? (fun x => x.email == e) = none →
      ∃ merged, lookupD (smartMerge .LATEST_WINS localData remoteData) d = some merged ∧
        merged.find? (fun x => x.email == e) = some l) ∧
    (lookupD remoteData d = none →
      ∃ merged, lookupD (smartMerge .LATEST_WINS localData remoteData) d = some merged ∧
        merged.find? (fun x => x.email == e) = some l) := by
  obtain ⟨pr, hpr, hpr2⟩ := Option.map_eq_some'.mp hld
  have hmerged :
      lookupD (smartMerge .LATEST_WINS localData remoteData) d =
        some (mergeDomainLists .LATEST_WINS ((lookupD remoteData d).getD []) pr.2) := by
    rw [lookupD_smartMerge .LATEST_WINS localData remoteData d hndl, hpr]
  rw [hpr2] at hmerged
  refine ⟨?_, ?_, ?_⟩
  · intro rl r hrd hre
    refine ⟨_, hmerged, ?_⟩
    rw [find_mergeDomainLists .LATEST_WINS ll _ e hndll, hle, hrd]
    simp only [Option.getD_some]
    rw [hre]
    rfl
  · intro rl hrd hre
    refine ⟨_, hmerged, ?_⟩
    rw [find_mergeDomainLists .LATEST_WINS ll _ e hndll, hle, hrd]
    simp only [Option.getD_some]
    rw [hre]
  · intro hrd
    refine ⟨_, hmerged, ?_⟩
    rw [find_mergeDomainLists .LATEST_WINS ll _ e hndll, hle, hrd]
    simp only [Option.getD_none]
    rfl

/-- Witness for C1: local `{e1, t=100}` beats remote `{e1, t=50}`, matching
the spec's example. -/
theorem C1_witness :
    ∃ merged,
      lookupD (smartMerge .LATEST_WINS
        [("example.com", [⟨"e1", "u", 100, 1, none⟩, ⟨"e2", "u", 77, 1, none⟩])]
        [("example.com", [⟨"e1", "r", 50, 3, none⟩])]) "example.com" = some merged ∧
      merged.find? (fun x => x.email == "e1") = some ⟨"e1", "u", 100, 1, none⟩ := by
  have h := (C1_smartMerge_latest_wins
      [("example.com", [⟨"e1", "u", 100, 1, none⟩, ⟨"e2", "u", 77, 1, none⟩])]
      [("example.com", [⟨"e1", "r", 50, 3, none⟩])] "example.com" "e1"
      [⟨"e1", "u", 100, 1, none⟩, ⟨"e2", "u", 77, 1, none⟩] ⟨"e1", "u", 100, 1, none⟩
      (by decide) (by decide) (by decide) (by decide)).1
      [⟨"e1", "r", 50, 3, none⟩] ⟨"e1", "r", 50, 3, none⟩ (by decide) (by decide)
  simpa using h

/-- C3: upserting a sixth distinct email into a domain whose list holds 5
entries (the cap of `saveEmailMapping`) prepends the new record and keeps
only the first five — evicting the tail entry, which is the
oldest-touched one when the list was ordered most-recently-touched first;
the result has exactly 5 records and stays ordered. -/
theorem C3_upsert_evicts (m : DomainMappings) (d email apiUrl : String) (now : Nat)
    (lst : List EmailMapping)
    (hlst : lookupD m d = some lst)
    (hlen : lst.length = 5)
    (hnew : lst.findIdx? (fun x => x.email == email) = none)
    (hchain : lst.Chain' (fun a b => b.timestamp ≤ a.timestamp))
    (hnow : ∀ x ∈ lst, x.timestamp ≤ now) :
    lookupD (saveEmailMapping m d email apiUrl now) d =
      some (⟨email, apiUrl, now, 1, none⟩ :: lst.take 4) ∧
    (⟨email, apiUrl, now, 1, none⟩ :: lst.take 4).length = 5 ∧
    lst.take 4 = lst.dropLast ∧
    List.Chain' (fun a b => b.timestamp ≤ a.timestamp)
      (⟨email, apiUrl, now, 1, none⟩ :: lst.take 4) := by
  have hbranch : saveEmailMapping m d email apiUrl now =
      setD m d (⟨email, apiUrl, now, 1, none⟩ :: lst.take 4) := by
    unfold saveEmailMapping
    simp only [hlst, Option.getD_some, hnew, Option.isSome_none, Bool.false_eq_true,
      if_false, List.length_cons, hlen]
    norm_num
  refine ⟨?_, ?_, ?_, ?_⟩
  · rw [hbranch, lookupD_setD, if_pos rfl]
  · simp only [List.length_cons, List.length_take, hlen]
    norm_num
  · rw [List.dropLast_eq_take, hlen]
  · rw [List.chain'_cons']
    constructor
    · intro y hy
      have hyt : y ∈ lst.take 4 := by
        cases htk : lst.take 4 with
        | nil => rw [htk] at hy; simp at hy
        | cons a rest =>
          rw [htk] at hy
          simp only [List.head?_cons, Option.mem_def, Option.some.injEq] at hy
          subst hy
          exact List.mem_cons_self a rest
      exact hnow y (List.take_subset 4 lst hyt)
    · exact hchain.take 4

/-- Witness for C3: a full five-record list, ordered newest first, receives
a sixth distinct email. -/
theorem C3_witness :
    lookupD (saveEmailMapping
      [("d", [⟨"e5", "u", 5, 1, none⟩, ⟨"e4", "u", 4, 1, none⟩, ⟨"e3", "u", 3, 1, none⟩,
              ⟨"e2", "u", 2, 1, none⟩, ⟨"e1", "u", 1, 1, none⟩])]
      "d" "e6@x.com" "u" 6) "d" =
      some [⟨"e6@x.com", "u", 6, 1, none⟩, ⟨"e5", "u", 5, 1, none⟩, ⟨"e4", "u", 4, 1, none⟩,
            ⟨"e3", "u", 3, 1, none⟩, ⟨"e2", "u", 2, 1, none⟩] := by
  have h := C3_upsert_evicts
    [("d", [⟨"e5", "u", 5, 1, none⟩, ⟨"e4", "u", 4, 1, none⟩, ⟨"e3", "u", 3, 1, none⟩,
            ⟨"e2", "u", 2, 1, none⟩, ⟨"e1", "u", 1, 1, none⟩])]
    "d" "e6@x.com" "u" 6
    [⟨"e5", "u", 5, 1, none⟩, ⟨"e4", "u", 4, 1, none⟩, ⟨"e3", "u", 3, 1, none⟩,
     ⟨"e2", "u", 2, 1, none⟩, ⟨"e1", "u", 1, 1, none⟩]
    (by decide) (by decide) (by decide)
    (by simp [List.chain'_cons']) (by decide)
  simpa using h.1

/-- C6 fails on the code: merging two stores that are each reachable under
the 5-record cap of `saveEmailMapping` yields a 10-record list for the
shared domain — `smartMerge` never truncates. -/
theorem C6_counterexample :
    ((lookupD (smartMerge .LATEST_WINS localC6 remoteC6) "d").getD []).length = 10 ∧
    ¬ ((lookupD (smartMerge .LATEST_WINS localC6 remoteC6) "d").getD []).length ≤ 5 :=
  ⟨by decide, by decide⟩

/-- The record list a store holds for a domain, under a cap invariant. -/
theorem capBound_getD {k : Nat} {m : DomainMappings} (hm : CapBound k m)
    (d : String) : ((lookupD m d).getD []).length ≤ k := by
  cases h : lookupD m d with
  | none => simp
  | some lst => simpa using hm d lst h

/-- Updating a record in place does not change the list's length. -/
theorem length_updateFirst (e : String) (f : EmailMapping → EmailMapping)
    (l : List EmailMapping) : (updateFirst e f l).length = l.length := by
  induction l with
  | nil => rfl
  | cons x rest ih =>
    simp only [updateFirst]
    split
    · simp
    · simp [ih]

/-- The empty store satisfies any cap. -/
theorem capBound_nil (k : Nat) : CapBound k [] := by
  intro d lst h
  simp [lookupD] at h

/-- The empty store has unique emails. -/
theorem uniqueEmails_nil : UniqueEmails [] := by
  intro d lst h
  simp [lookupD] at h

/-- C6 (amended): the cap is enforced by the upsert paths — lists stay at
most 5 under `saveEmailMapping` and at most 10 under the background paths
(`storeEmailMapping`, ADD_EMAIL), evicting from the tail — but the sync
merge enforces no cap at all: a merged domain list is only bounded by the
sum of the local and remote list lengths. -/
theorem C6_cap_amended :
    (∀ m d e u now, CapBound 5 m → CapBound 5 (saveEmailMapping m d e u now)) ∧
    (∀ m d e u now, CapBound 10 m → CapBound 10 (bgStoreEmailMapping m d e u now)) ∧
    (∀ m d e now, CapBound 10 m → CapBound 10 (addEmailManual m d e now).2) ∧
    (∀ strategy localData remoteData d ll merged,
      (localData.map Prod.fst).Nodup →
      lookupD localData d = some ll →
      lookupD (smartMerge strategy localData remoteData) d = some merged →
      merged.length ≤ ((lookupD remoteData d).getD []).length + ll.length) := by
  refine ⟨?_, ?_, ?_, ?_⟩
  · intro m d e u now hm d' lst' h'
    unfold saveEmailMapping at h'
    rw [lookupD_setD] at h'
    by_cases hd : d' = d
    · rw [if_pos hd] at h'
      have hbase := capBound_getD hm d
      rcases Option.some.inj h' with rfl
      dsimp only
      split
      · rw [length_updateFirst]
        exact hbase
      · split
        · simp only [List.length_take]
          omega
        · omega
    · rw [if_neg hd] at h'
      exact hm d' lst' h'
  · intro m d e u now hm d' lst' h'
    unfold bgStoreEmailMapping at h'
    dsimp only at h'
    split at h'
    · exact hm d' lst' h'
    · rw [lookupD_setD] at h'
      by_cases hd : d' = d
      · rw [if_pos hd] at h'
        have hbase := capBound_getD hm d
        rcases Option.some.inj h' with rfl
        split
        · simp only [List.length_take]
          omega
        · omega
      · rw [if_neg hd] at h'
        exact hm d' lst' h'
  · intro m d e now hm d' lst' h'
    unfold addEmailManual at h'
    dsimp only at h'
    split at h'
    · exact hm d' lst' h'
    · dsimp only at h'
      rw [lookupD_setD] at h'
      by_cases hd : d' = d
      · rw [if_pos hd] at h'
        have hbase := capBound_getD hm d
        rcases Option.some.inj h' with rfl
        split
        · simp only [List.length_take]
          omega
        · omega
      · rw [if_neg hd] at h'
        exact hm d' lst' h'
  · intro strategy localData remoteData d ll merged hnd hld hmg
    obtain ⟨pr, hpr, hpr2⟩ := Option.map_eq_some'.mp hld
    rw [lookupD_smartMerge strategy localData remoteData d hnd, hpr] at hmg
    simp only at hmg
    rcases Option.some.inj hmg with rfl
    rw [hpr2]
    exact length_mergeDomainLists strategy ll _

/-- Witness for the amended C6 on the upsert path. -/
theorem C6_witness : CapBound 5 (saveEmailMapping [] "example.com" "a@x.com" "u" 1) :=
  C6_cap_amended.1 [] "example.com" "a@x.com" "u" 1 (capBound_nil 5)

/-- C7 fails on the code as stated: DELETE_EMAIL on an existing domain
replies success even when the email is not present — here the store
(reached by one upsert) holds only `a@x.com`, yet deleting `b@x.com`
returns `true`. -/
theorem C7_counterexample :
    (deleteEmail (saveEmailMapping [] "d" "a@x.com" "u" 1) "d" "b@x.com").1 = true ∧
    lookupD (saveEmailMapping [] "d" "a@x.com" "u" 1) "d" =
      some [⟨"a@x.com", "u", 1, 1, none⟩] :=
  ⟨by decide, by decide⟩

/-- Deleting one key leaves every other key's entry unchanged. -/
theorem lookupD_removeD_ne (m : DomainMappings) (d d' : String) (h : d' ≠ d) :
    lookupD (removeD m d) d' = lookupD m d' := by
  induction m with
  | nil => rfl
  | cons p m ih =>
    obtain ⟨k, v⟩ := p
    by_cases hk : k = d
    · subst hk
      rw [show removeD ((k, v) :: m) k = m by simp [removeD]]
      have hb : (k == d') = false := by
        simp only [beq_eq_false_iff_ne, ne_eq]
        exact fun hh => h hh.symm
      unfold lookupD
      simp only [List.find?, hb]
    · have hbk : (k == d) = false := by simp [hk]
      rw [show removeD ((k, v) :: m) d = (k, v) :: removeD m d by simp [removeD, hbk]]
      unfold lookupD at ih ⊢
      simp only [List.find?]
      cases hkd : (k == d') <;> simp [ih]

/-- C7 (amended): DELETE_EMAIL replies success exactly when the domain key
exists — not when the record was found; it removes every record with the
given email, deletes the domain key entirely when the list becomes empty,
and after removing a domain's only record the statistics drop by one
domain (zero when that was the only domain). -/
theorem C7_remove_amended (m : DomainMappings) (d e : String)
    (hnd : (m.map Prod.fst).Nodup) :
    ((deleteEmail m d e).1 = (lookupD m d).isSome) ∧
    (∀ lst', lookupD (deleteEmail m d e).2 d = some lst' → ∀ x ∈ lst', x.email ≠ e) ∧
    (∀ r, lookupD m d = some [r] → r.email = e →
      lookupD (deleteEmail m d e).2 d = none ∧
      (getStorageStats (deleteEmail m d e).2).totalDomains + 1 =
        (getStorageStats m).totalDomains) := by
  cases hl : lookupD m d with
  | none =>
    have hdel : deleteEmail m d e = (false, m) := by
      unfold deleteEmail
      rw [hl]
    refine ⟨by rw [hdel]; rfl, ?_, ?_⟩
    · intro lst' h'
      rw [hdel] at h'
      simp only at h'
      rw [hl] at h'
      exact absurd h' (by simp)
    · intro r hr
      exact absurd hr (by simp)
  | some lst =>
    have hdel : deleteEmail m d e =
        (true,
         if (lst.filter (fun x => x.email != e)).isEmpty then removeD m d
         else setD m d (lst.filter (fun x => x.email != e))) := by
      unfold deleteEmail
      rw [hl]
    refine ⟨by rw [hdel]; rfl, ?_, ?_⟩
    · intro lst' h' x hx
      rw [hdel] at h'
      simp only at h'
      by_cases hemp : (lst.filter (fun x => x.email != e)).isEmpty
      · rw [if_pos hemp, lookupD_removeD_self m d hnd] at h'
        exact absurd h' (by simp)
      · rw [if_neg hemp, lookupD_setD, if_pos rfl] at h'
        rcases Option.some.inj h' with rfl
        have hmem := List.mem_filter.mp hx
        intro hxe
        rw [hxe] at hmem
        simp at hmem
    · intro r hr hre
      rcases Option.some.inj hr with rfl
      have hemp : ([r].filter (fun x => x.email != e)).isEmpty = true := by
        simp [List.filter, hre]
      rw [hdel, if_pos hemp]
      refine ⟨lookupD_removeD_self m d hnd, ?_⟩
      exact removeD_length m d [r] hl

/-- Witness for the amended C7: deleting the only record of the only
domain yields an empty store and zero domains. -/
theorem C7_witness :
    (deleteEmail (saveEmailMapping [] "d" "a@x.com" "u" 1) "d" "a@x.com").1 = true ∧
    lookupD (deleteEmail (saveEmailMapping [] "d" "a@x.com" "u" 1) "d" "a@x.com").2 "d"
      = none ∧
    (getStorageStats
      (deleteEmail (saveEmailMapping [] "d" "a@x.com" "u" 1) "d" "a@x.com").2).totalDomains
      + 1 =
      (getStorageStats (saveEmailMapping [] "d" "a@x.com" "u" 1)).totalDomains := by
  have h := C7_remove_amended (saveEmailMapping [] "d" "a@x.com" "u" 1) "d" "a@x.com"
    (by decide)
  have h3 := h.2.2 ⟨"a@x.com", "u", 1, 1, none⟩ (by decide) (by decide)
  exact ⟨by rw [h.1]; decide, h3.1, h3.2⟩

/-- C5 fails on the code: after two upserts the domain holds `b@x.com` and
`a@x.com`; EDIT_EMAIL renames `b@x.com` to `a@x.com` without checking for
an existing record, leaving two records with the same email. -/
theorem C5_counterexample :
    ¬ (((lookupD (editEmail
        (saveEmailMapping (saveEmailMapping [] "d" "a@x.com" "u" 1) "d" "b@x.com" "u" 2)
        "d" "b@x.com" "a@x.com" none 3).2 "d").getD []).map
      (fun x => x.email)).Nodup := by decide

/-- The record list a store holds for a domain has unique emails, under
the uniqueness invariant. -/
theorem uniqueEmails_getD {m : DomainMappings} (hm : UniqueEmails m) (d : String) :
    (((lookupD m d).getD []).map (fun x => x.email)).Nodup := by
  cases h : lookupD m d with
  | none => simp
  | some lst => simpa using hm d lst h

/-- An in-place update that keeps each record's email fixed leaves the
email column unchanged. -/
theorem map_email_updateFirst (e : String) (f : EmailMapping → EmailMapping)
    (hf : ∀ x, (f x).email = x.email) (l : List EmailMapping) :
    (updateFirst e f l).map (fun x => x.email) = l.map (fun x => x.email) := by
  induction l with
  | nil => rfl
  | cons x rest ih =>
    simp only [updateFirst]
    split
    · simp [hf x]
    · simp [ih]

/-- Emails present after a rename-in-place: each was present before, or is
the new name. -/
theorem mem_map_email_updateFirst (old new : String) (f : EmailMapping → EmailMapping)
    (hf : ∀ x, (f x).email = new) (l : List EmailMapping) (y : String)
    (hy : y ∈ (updateFirst old f l).map (fun x => x.email)) :
    y ∈ l.map (fun x => x.email) ∨ y = new := by
  induction l with
  | nil => simp [updateFirst] at hy
  | cons x rest ih =>
    simp only [updateFirst] at hy
    split at hy
    · simp only [List.map_cons, List.mem_cons, hf x] at hy
      rcases hy with hy | hy
      · exact Or.inr hy
      · exact Or.inl (by simp [hy])
    · simp only [List.map_cons, List.mem_cons] at hy
      rcases hy with hy | hy
      · exact Or.inl (by simp [hy])
      · rcases ih hy with h | h
        · exact Or.inl (List.mem_cons_of_mem _ h)
        · exact Or.inr h

/-- Renaming the first record named `old` to `new` preserves uniqueness of
the email column, provided `new` is the old name itself or not present. -/
theorem nodup_updateFirst_rename (old new : String) (f : EmailMapping → EmailMapping)
    (hf : ∀ x, (f x).email = new) (l : List EmailMapping)
    (hnd : (l.map (fun x => x.email)).Nodup)
    (hnew : new = old ∨ new ∉ l.map (fun x => x.email)) :
    ((updateFirst old f l).map (fun x => x.email)).Nodup := by
  induction l with
  | nil => simp [updateFirst]
  | cons x rest ih =>
    simp only [List.map_cons, List.nodup_cons] at hnd
    simp only [updateFirst]
    split
    · next hx =>
      simp only [List.map_cons, List.nodup_cons, hf x]
      refine ⟨?_, hnd.2⟩
      rcases hnew with hnew | hnew
      · rw [hnew, ← beq_iff_eq.mp hx]
        exact hnd.1
      · intro hmem
        exact hnew (List.mem_cons_of_mem _ hmem)
    · next hx =>
      simp only [List.map_cons, List.nodup_cons]
      have hx' : x.email ≠ old := by simpa using hx
      refine ⟨?_, ?_⟩
      · intro hmem
        rcases mem_map_email_updateFirst old new f hf rest x.email hmem with h | h
        · exact hnd.1 h
        · rcases hnew with hnew | hnew
          · exact hx' (h.trans hnew)
          · exact hnew (h ▸ List.mem_cons_self _ _)
      · refine ih hnd.2 ?_
        rcases hnew with hnew | hnew
        · exact Or.inl hnew
        · exact Or.inr (fun hmem => hnew (List.mem_cons_of_mem _ hmem))

/-- An email with no `findIndex` hit is absent from the email column. -/
theorem not_mem_email_of_findIdx_none {l : List EmailMapping} {e : String}
    (h : l.findIdx? (fun x => x.email == e) = none) :
    e ∉ l.map (fun x => x.email) := by
  intro hmem
  obtain ⟨x, hx, hxe⟩ := List.mem_map.mp hmem
  have := List.findIdx?_eq_none_iff.mp h x hx
  simp [hxe] at this

/-- An email with no `find` hit is absent from the email column. -/
theorem not_mem_email_of_find_none {l : List EmailMapping} {e : String}
    (h : l.find? (fun x => x.email == e) = none) :
    e ∉ l.map (fun x => x.email) := by
  intro hmem
  obtain ⟨x, hx, hxe⟩ := List.mem_map.mp hmem
  have := List.find?_eq_none.mp h x hx
  simp [hxe] at this

/-- C5 (amended): within each domain's record list, emails stay pairwise
distinct under the upsert paths (`saveEmailMapping`, `storeEmailMapping`),
the ADD_EMAIL handler (which refuses duplicates) and the DELETE_EMAIL
handler; the EDIT_EMAIL rename preserves uniqueness only when the new
email is the old one or is not already present in the list — the code
performs no such check, and a clashing rename creates a duplicate (see the
counterexample). -/
theorem C5_uniqueness_amended (m : DomainMappings)
    (hnd : (m.map Prod.fst).Nodup) (hm : UniqueEmails m) :
    (∀ d e u now, UniqueEmails (saveEmailMapping m d e u now)) ∧
    (∀ d e u now, UniqueEmails (bgStoreEmailMapping m d e u now)) ∧
    (∀ d e now, UniqueEmails (addEmailManual m d e now).2) ∧
    (∀ d e, UniqueEmails (deleteEmail m d e).2) ∧
    (∀ d oldE newE dsc now lst, lookupD m d = some lst →
      (newE = oldE ∨ newE ∉ lst.map (fun x => x.email)) →
      UniqueEmails (editEmail m d oldE newE dsc now).2) := by
  refine ⟨?_, ?_, ?_, ?_, ?_⟩
  · intro d e u now d' lst' h'
    unfold saveEmailMapping at h'
    rw [lookupD_setD] at h'
    by_cases hd : d' = d
    · rw [if_pos hd] at h'
      rcases Option.some.inj h' with rfl
      dsimp only
      split
      · rw [map_email_updateFirst e
          (fun x => { x with timestamp := now, count := x.count + 1, apiUrl := u })
          (fun x => rfl)]
        exact uniqueEmails_getD hm d
      · next hfound =>
        have hnotmem : e ∉ ((lookupD m d).getD []).map (fun x => x.email) := by
          apply not_mem_email_of_findIdx_none
          rcases hidx : ((lookupD m d).getD []).findIdx? (fun x => x.email == e) with
            _ | v
          · exact hidx
          · rw [hidx] at hfound
            simp at hfound
        have hl2 :
            ((⟨e, u, now, 1, none⟩ :: (lookupD m d).getD [] : List EmailMapping).map
              (fun x => x.email)).Nodup := by
          simp only [List.map_cons, List.nodup_cons]
          exact ⟨hnotmem, uniqueEmails_getD hm d⟩
        split
        · exact hl2.sublist ((List.take_sublist _ _).map _)
        · exact hl2
    · rw [if_neg hd] at h'
      exact hm d' lst' h'
  · intro d e u now d' lst' h'
    unfold bgStoreEmailMapping at h'
    dsimp only at h'
    split at h'
    · exact hm d' lst' h'
    · next hfound =>
      rw [lookupD_setD] at h'
      by_cases hd : d' = d
      · rw [if_pos hd] at h'
        rcases Option.some.inj h' with rfl
        have hnone : ((lookupD m d).getD []).find? (fun x => x.email == e) = none := by
          rcases hfd : ((lookupD m d).getD []).find? (fun x => x.email == e) with _ | v
          · exact hfd
          · rw [hfd] at hfound
            simp at hfound
        have hl2 :
            ((⟨e, u, now, 1, none⟩ :: (lookupD m d).getD [] : List EmailMapping).map
              (fun x => x.email)).Nodup := by
          simp only [List.map_cons, List.nodup_cons]
          exact ⟨not_mem_email_of_find_none hnone, uniqueEmails_getD hm d⟩
        split
        · exact hl2.sublist ((List.take_sublist _ _).map _)
        · exact hl2
      · rw [if_neg hd] at h'
        exact hm d' lst' h'
  · intro d e now d' lst' h'
    unfold addEmailManual at h'
    dsimp only at h'
    split at h'
    · exact hm d' lst' h'
    · next hfound =>
      dsimp only at h'
      rw [lookupD_setD] at h'
      by_cases hd : d' = d
      · rw [if_pos hd] at h'
        rcases Option.some.inj h' with rfl
        have hnone : ((lookupD m d).getD []).find? (fun x => x.email == e) = none := by
          rcases hfd : ((lookupD m d).getD []).find? (fun x => x.email == e) with _ | v
          · exact hfd
          · rw [hfd] at hfound
            simp at hfound
        have hl2 :
            ((⟨e, "manual://" ++ d, now, 1, none⟩ :: (lookupD m d).getD [] :
              List EmailMapping).map (fun x => x.email)).Nodup := by
          simp only [List.map_cons, List.nodup_cons]
          exact ⟨not_mem_email_of_find_none hnone, uniqueEmails_getD hm d⟩
        split
        · exact hl2.sublist ((List.take_sublist _ _).map _)
        · exact hl2
      · rw [if_neg hd] at h'
        exact hm d' lst' h'
  · intro d e d' lst' h'
    unfold deleteEmail at h'
    cases hl : lookupD m d with
    | none =>
      rw [hl] at h'
      exact hm d' lst' h'
    | some lst =>
      rw [hl] at h'
      simp only at h'
      by_cases hemp : (lst.filter (fun x => x.email != e)).isEmpty
      · rw [if_pos hemp] at h'
        by_cases hd : d' = d
        · rw [hd, lookupD_removeD_self m d hnd] at h'
          exact absurd h' (by simp)
        · rw [lookupD_removeD_ne m d d' hd] at h'
          exact hm d' lst' h'
      · rw [if_neg hemp, lookupD_setD] at h'
        by_cases hd : d' = d
        · rw [if_pos hd] at h'
          rcases Option.some.inj h' with rfl
          exact (hm d lst hl).sublist ((List.filter_sublist lst).map _)
        · rw [if_neg hd] at h'
          exact hm d' lst' h'
  · intro d oldE newE dsc now lst hl hprov d' lst' h'
    unfold editEmail at h'
    rw [hl] at h'
    simp only at h'
    split at h'
    · rw [lookupD_setD] at h'
      by_cases hd : d' = d
      · rw [if_pos hd] at h'
        rcases Option.some.inj h' with rfl
        exact nodup_updateFirst_rename oldE newE _ (fun x => rfl) lst
          (hm d lst hl) hprov
      · rw [if_neg hd] at h'
        exact hm d' lst' h'
    · exact hm d' lst' h'

/-- Witness for the amended C5 on the upsert path, starting from the empty
store. -/
theorem C5_witness : UniqueEmails (saveEmailMapping [] "example.com" "a@x.com" "u" 1) :=
  (C5_uniqueness_amended [] (by simp) uniqueEmails_nil).1 "example.com" "a@x.com" "u" 1
